import Mathlib

/-!
A verification development for the tracing backend (`backend/database.py`,
`backend/models.py`, `backend/main.py`).

Modelling conventions:
* Python strings are Lean `String`s; where character-level scanning matters
  (the span-name template resolver) we work on `List Char`.
* Timestamps are absolute times at microsecond resolution (Python `datetime`
  / the stored timestamp columns have microsecond resolution), modelled as
  `Int` microseconds since the epoch.  ISO-8601 rendering of a timestamp is
  an order-preserving injection, so responses carry the timestamp itself.
* Millisecond durations are exact rationals (`Rat`).  Python computes them
  with IEEE doubles; every value that actually arises is an exact small
  rational, and no claim depends on rounding error, so `Rat` is the faithful
  exact model.
* A Python `dict` is an insertion-ordered association list with unique keys
  (`dictInsert` overwrites in place, appends when the key is new).
* The OTLP attribute `intValue` arrives on the wire as a decimal string and
  is converted with `int(...)`; the model carries the converted integer.
* The database pool is an opaque store.  Bulk-insert outcomes are modelled
  by an explicit `StorageOutcome`; read queries are modelled by executing
  their (fully determined) semantics over the list of stored rows.
-/

/-- A flattened attribute value: the scalar stored in the JSONB map.
`float` abstracts an IEEE double as the exact rational it denotes. -/
inductive Scalar where
  | str (s : String)
  | int (n : Int)
  | float (q : Rat)
  | bool (b : Bool)
deriving DecidableEq

/-- A Python dict from string keys to scalars: insertion-ordered assoc list
with unique keys (maintained by `dictInsert`). -/
abbrev AttrDict := List (String × Scalar)

/-- Python `d[k]` / `d.get(k)`: the value at the (unique) entry for `k`. -/
def dictGet (d : AttrDict) (k : String) : Option Scalar :=
  (d.find? (fun p => p.1 = k)).map (fun p => p.2)

/-- Python `d[k] = v`: overwrite the entry for `k` in place, or append a new
entry when `k` is absent. -/
def dictInsert (d : AttrDict) (k : String) (v : Scalar) : AttrDict :=
  match d with
  | [] => [(k, v)]
  | p :: rest => if p.1 = k then (k, v) :: rest else p :: dictInsert rest k v

/-- `models.OLTPAttributeValue`: closed variant, at most one populated field.
`arrayValue` / `kvlistValue` payloads are opaque blobs (their rendering). -/
structure OLTPAttributeValue where
  stringValue : Option String := none
  intValue : Option Int := none
  doubleValue : Option Rat := none
  boolValue : Option Bool := none
  arrayValue : Option String := none
  kvlistValue : Option String := none
deriving DecidableEq

/-- `models.OLTPAttribute`. -/
structure OLTPAttribute where
  key : String
  value : OLTPAttributeValue
deriving DecidableEq

/-- `str(None)` as Python renders it. -/
def pyNone : String := "None"

/-- Deterministic rendering of a whole attribute value, abstracting Python's
`str(attr.value)` (the pydantic textual form) in the flattener's fallback. -/
def debugStr (v : OLTPAttributeValue) : String :=
  "stringValue=" ++ (match v.stringValue with
    | some s => "'" ++ s ++ "'"
    | none => pyNone) ++
  " intValue=" ++ (match v.intValue with
    | some n => "'" ++ toString n ++ "'"
    | none => pyNone) ++
  " doubleValue=" ++ (match v.doubleValue with
    | some q => toString q
    | none => pyNone) ++
  " boolValue=" ++ (match v.boolValue with
    | some b => if b then "True" else "False"
    | none => pyNone) ++
  " arrayValue=" ++ (match v.arrayValue with
    | some a => a
    | none => pyNone) ++
  " kvlistValue=" ++ (match v.kvlistValue with
    | some a => a
    | none => pyNone)

/-- The per-value branch of `flatten_attributes`: check `stringValue`, then
`intValue`, then `doubleValue`, then `boolValue`, else fall back to a debug
string of the whole value. -/
def extractValue (v : OLTPAttributeValue) : Scalar :=
  match v.stringValue with
  | some s => .str s
  | none =>
    match v.intValue with
    | some n => .int n
    | none =>
      match v.doubleValue with
      | some q => .float q
      | none =>
        match v.boolValue with
        | some b => .bool b
        | none => .str (debugStr v)

/-- `database.flatten_attributes`: fold the attribute list into a flat dict
(later occurrences of a key overwrite earlier ones). -/
def flatten_attributes (attributes : List OLTPAttribute) : AttrDict :=
  attributes.foldl (fun acc attr => dictInsert acc attr.key (extractValue attr.value)) []

/-- Python `str(...)` on a flattened scalar (`float` rendering is the
deterministic rational rendering, abstracting the double's repr). -/
def pyStr : Scalar → String
  | .str s => s
  | .int n => toString n
  | .float q => toString q
  | .bool b => if b then "True" else "False"

theorem dictGet_insert (d : AttrDict) (k' : String) (v : Scalar) (k : String) :
    dictGet (dictInsert d k' v) k = if k' = k then some v else dictGet d k := by
  induction d with
  | nil =>
    by_cases h : k' = k <;> simp [dictInsert, dictGet, List.find?, h]
  | cons p rest ih =>
    by_cases hp : p.1 = k'
    · by_cases h : k' = k
      · simp [dictInsert, hp, dictGet, List.find?, h]
      · have hpk : ¬ (p.1 = k) := by rw [hp]; exact h
        simp [dictInsert, hp, dictGet, List.find?, h, hpk]
    · by_cases hk : p.1 = k
      · have h : ¬ (k' = k) := by
          intro e; exact hp (by rw [hk, e])
        have hni : ¬ (k = k') := fun e => h e.symm
        simp [dictInsert, hp, dictGet, List.find?, hk, h, hni]
      · by_cases h : k' = k <;>
          simpa [dictInsert, hp, dictGet, List.find?, hk, h] using ih

/-- The value `dictGet` returns always comes from an entry of the dict. -/
theorem dictGet_mem (d : AttrDict) (k : String) (sc : Scalar)
    (h : dictGet d k = some sc) : ∃ p ∈ d, p.2 = sc := by
  unfold dictGet at h
  cases hf : d.find? (fun p => p.1 = k) with
  | none => rw [hf] at h; simp at h
  | some p =>
    rw [hf] at h
    simp at h
    exact ⟨p, List.mem_of_find?_eq_some hf, h⟩

/-! ## Span-name template resolution (`database.resolve_span_name`)

The source scans the span name once with the regular expression
`\x7b(\w+)\x7d` (`re.findall`) and then, for each discovered identifier that
is a key of the flattened attribute dict, replaces every occurrence of the
literal pattern (`str.replace`) with the string form of the value.  The
scanner and the replacer are modelled character by character; both are
written with a fuel argument (fuel = length of the scanned text suffices)
so that every definition is structurally recursive and computable by the
kernel. -/

abbrev Chars := List Char

/-- The regex class `\w` (ASCII word characters; Unicode word characters in
identifiers are out of scope for this model). -/
def isWordChar (c : Char) : Bool := c.isAlphanum || c == '_'

/-- `begins pat s` holds when the text `s` starts with `pat` (the test
`str.replace` makes at each position). -/
def begins : Chars → Chars → Bool
  | [], _ => true
  | _ :: _, [] => false
  | a :: ps, b :: ss => a == b && begins ps ss

/-- One left-to-right pass of `re.findall` for `\x7b(\w+)\x7d`: at each `{`
try to read a nonempty word-character run followed by `}`; on success record
the run and resume after the match, otherwise advance one character. -/
def findVarsF : Nat → Chars → List Chars
  | 0, _ => []
  | _ + 1, [] => []
  | fuel + 1, c :: rest =>
    if c = '{' then
      let w := rest.takeWhile isWordChar
      if w.isEmpty then findVarsF fuel rest
      else
        match rest.drop w.length with
        | d :: after => if d = '}' then w :: findVarsF fuel after else findVarsF fuel rest
        | [] => findVarsF fuel rest
    else findVarsF fuel rest

/-- `re.findall` of the template-variable pattern over a name. -/
def findVars (s : Chars) : List Chars := findVarsF s.length s

/-- Python `s.replace(pat, rep)`: replace every non-overlapping occurrence
of `pat`, scanning left to right. -/
def replaceAllF : Nat → Chars → Chars → Chars → Chars
  | 0, _, _, s => s
  | _ + 1, _, _, [] => []
  | fuel + 1, pat, rep, c :: rest =>
    if begins pat (c :: rest) then rep ++ replaceAllF fuel pat rep ((c :: rest).drop pat.length)
    else c :: replaceAllF fuel pat rep rest

/-- `s.replace(pat, rep)` for a nonempty pattern (the only patterns the
resolver builds are of the form a brace, an identifier, a brace). -/
def replaceAll (pat rep s : Chars) : Chars :=
  if pat.isEmpty then s else replaceAllF s.length pat rep s

/-- The literal pattern built for a template variable `v`: `{` ++ v ++ `}`. -/
def mkPat (v : Chars) : Chars := '{' :: (v ++ ['}'])

/-- Character-level body of `resolve_span_name`: if the attribute dict is
empty return the name unchanged; otherwise find all template variables and
fold over them, replacing the pattern of each variable that is a key of the
dict with the string form of its value. -/
def resolveChars (name : Chars) (attributes : AttrDict) : Chars :=
  if attributes.isEmpty then name
  else
    (findVars name).foldl
      (fun resolved v =>
        match dictGet attributes (String.mk v) with
        | some sc => replaceAll (mkPat v) (pyStr sc).data resolved
        | none => resolved)
      name

/-- `database.resolve_span_name`. -/
def resolve_span_name (span_name : String) (attributes : AttrDict) : String :=
  String.mk (resolveChars span_name.data attributes)

/-! ## OTLP wire model (`backend/models.py`) and the ingestion transform -/

/-- `models.OLTPEvent` (unused by the ingestion transform, kept for
completeness of the span model). -/
structure OLTPEvent where
  time_unix_nano : Int
  name : String
  attributes : List OLTPAttribute := []
deriving DecidableEq

/-- `models.OLTPScope`. -/
structure OLTPScope where
  name : String
  version : String
  attributes : List OLTPAttribute := []
deriving DecidableEq

/-- `models.OLTPSpan`.  Timestamps are microseconds since the epoch (the
resolution of the `datetime` values the nanosecond strings are parsed to). -/
structure OLTPSpan where
  trace_id : String
  span_id : String
  parent_span_id : Option String := none
  name : String
  start_time_unix_nano : Int
  end_time_unix_nano : Int
  kind : Int
  attributes : List OLTPAttribute := []
  events : List OLTPEvent := []
deriving DecidableEq

/-- `models.OLTPResource`. -/
structure OLTPResource where
  attributes : List OLTPAttribute
deriving DecidableEq

/-- `models.OLTPScopeSpan`. -/
structure OLTPScopeSpan where
  scope : OLTPScope
  spans : List OLTPSpan
deriving DecidableEq

/-- `models.OLTPResourceSpan`. -/
structure OLTPResourceSpan where
  resource : OLTPResource
  scope_spans : List OLTPScopeSpan
deriving DecidableEq

/-- `models.TraceRequest`. -/
structure TraceRequest where
  resource_spans : List OLTPResourceSpan
deriving DecidableEq

/-- One flat span record produced by the ingestion transform.  The
`attributes` / `resource_attributes` columns hold `json.dumps` of the
flattened dicts; the JSON text is abstracted by the dict it encodes. -/
structure SpanRecord where
  trace_id : String
  span_id : String
  parent_span_id : Option String
  name : String
  start_time_unix_nano : Int
  end_time_unix_nano : Int
  kind : Int
  attributes : AttrDict
  service_name : Scalar
  resource_attributes : AttrDict
deriving DecidableEq

/-- `database.serialize_spans_for_db`: walk resource to scope to span,
flatten attributes, resolve the span name, and emit one flat record per
span; the record's service name is the resource's `service.name` attribute,
defaulting to the string `unknown`. -/
def serialize_spans_for_db (trace_request : TraceRequest) : List SpanRecord :=
  trace_request.resource_spans.flatMap (fun resource_spans =>
    let resource_attrs := flatten_attributes resource_spans.resource.attributes
    resource_spans.scope_spans.flatMap (fun scope_spans =>
      scope_spans.spans.map (fun span =>
        let flattened_attrs := flatten_attributes span.attributes
        { trace_id := span.trace_id
          span_id := span.span_id
          parent_span_id := span.parent_span_id
          name := resolve_span_name span.name flattened_attrs
          start_time_unix_nano := span.start_time_unix_nano
          end_time_unix_nano := span.end_time_unix_nano
          kind := span.kind
          attributes := flattened_attrs
          service_name := (dictGet resource_attrs "service.name").getD (.str "unknown")
          resource_attributes := resource_attrs })))

/-- The incoming spans of a payload, in resource/scope/span walk order. -/
def allSpans (trace_request : TraceRequest) : List OLTPSpan :=
  trace_request.resource_spans.flatMap (fun rs => rs.scope_spans.flatMap (fun ss => ss.spans))

/-! ## Bulk writer (`database.insert_spans_batch`, `main.receive_traces`) -/

/-- Outcome of the one storage call the bulk writer makes
(`copy_records_to_table`): either the store accepts the rows or it raises. -/
inductive StorageOutcome where
  | ok
  | err (msg : String)

/-- The store's bulk load: on success the rows are appended to the table,
otherwise the call raises and the table is unchanged. -/
def copy_records_to_table (outcome : StorageOutcome) (table records : List SpanRecord) :
    Except String (List SpanRecord) :=
  match outcome with
  | .ok => .ok (table ++ records)
  | .err m => .error m

/-- `database.insert_spans_batch`: an empty batch returns immediately; the
bulk load is attempted inside a try/except whose handler only logs, so a
storage error leaves the table unchanged and the function still returns
normally.  The `Except` result type records whether an exception escapes to
the caller. -/
def insert_spans_batch (outcome : StorageOutcome) (table : List SpanRecord)
    (spans_data : List SpanRecord) : Except String (List SpanRecord) :=
  if spans_data.isEmpty then .ok table
  else
    match copy_records_to_table outcome table spans_data with
    | .ok t => .ok t
    | .error _ => .ok table

/-- `main.receive_traces`: serialize the payload, bulk-insert, and answer
the OTLP partial-success envelope.  An exception from the insert would
propagate to the producer (the `.error` branch); the theorem for the bulk
writer shows that branch is never taken. -/
def receive_traces (outcome : StorageOutcome) (table : List SpanRecord)
    (trace_request : TraceRequest) : Except String (List SpanRecord × String) :=
  match insert_spans_batch outcome table (serialize_spans_for_db trace_request) with
  | .ok t => .ok (t, "partialSuccess")
  | .error e => .error e

/-! ## The stored table and the read queries -/

/-- One row of the `spans` table.  `service_name` is a nullable text column
(the read queries guard it with `IS NOT NULL`); `attributes` abstracts the
JSON text by the dict it encodes. -/
structure StoredSpan where
  id : Nat
  trace_id : String
  span_id : String
  parent_span_id : Option String
  name : String
  start_time_unix_nano : Int
  end_time_unix_nano : Int
  kind : Int
  attributes : AttrDict
  service_name : Option String
deriving DecidableEq

/-- Value of `c.toNat - '0'.toNat` accumulated over a digit run. -/
def digitsToNat (ds : Chars) : Nat :=
  ds.foldl (fun a c => a * 10 + (c.toNat - 48)) 0

/-- Python `float(s)` on a string: an optionally signed decimal number with
an optional fractional part (exponent/infinity forms are out of scope); any
other string raises `ValueError`, modelled as `none`.  The value is built
as an exact fraction over a power of ten. -/
def pyParseFloat (s : String) : Option Rat :=
  let core : Chars → Option (Nat × Nat) := fun cs =>
    let ip := cs.takeWhile Char.isDigit
    match cs.drop ip.length with
    | [] => if ip.isEmpty then none else some (digitsToNat ip, 1)
    | '.' :: frac =>
      if frac.all Char.isDigit && !(ip.isEmpty && frac.isEmpty) then
        some (digitsToNat ip * 10 ^ frac.length + digitsToNat frac, 10 ^ frac.length)
      else none
    | _ => none
  match s.data with
  | '-' :: rest => (core rest).map (fun p => mkRat (-(p.1 : Int)) p.2)
  | '+' :: rest => (core rest).map (fun p => mkRat (p.1 : Int) p.2)
  | cs => (core cs).map (fun p => mkRat (p.1 : Int) p.2)

/-- Python `float(x)` on a JSON scalar: numbers convert exactly, booleans
convert to `1.0` / `0.0`, strings are parsed (raising on failure). -/
def pyFloat : Scalar → Option Rat
  | .int n => some ((n : Int) : Rat)
  | .float q => some q
  | .bool b => some (if b then 1 else 0)
  | .str s => pyParseFloat s

/-- Per-span duration as the trace detail assembler computes it: the
end-minus-start difference in milliseconds; when that is exactly zero, fall
back to a `duration_ms` attribute if one exists and converts to a number
(a failed conversion is caught and the zero kept).  An absent or empty
attribute blob leaves the zero in place, the same outcome the source's
truthiness check on the JSON text produces. -/
def spanDuration (s : StoredSpan) : Rat :=
  let calculated : Rat := mkRat (s.end_time_unix_nano - s.start_time_unix_nano) 1000
  if calculated = 0 then
    match dictGet s.attributes "duration_ms" with
    | some sc => (pyFloat sc).getD 0
    | none => 0
  else calculated

/-- Python falsiness of an optional string: `None` and `""` are falsy. -/
def noParent : Option String → Bool
  | none => true
  | some p => p = ""

/-- One span dict of the trace-detail response. -/
structure SpanOut where
  id : String
  trace_id : String
  span_id : String
  parent_span_id : Option String
  name : String
  start_time : Int
  end_time : Int
  duration_ms : Rat
  kind : Int
  attributes : AttrDict
  service_name : String
deriving DecidableEq

/-- The per-row dict built inside `get_trace_detail`'s loop. -/
def mkSpanOut (s : StoredSpan) : SpanOut :=
  { id := toString s.id
    trace_id := s.trace_id
    span_id := s.span_id
    parent_span_id := s.parent_span_id
    name := s.name
    start_time := s.start_time_unix_nano
    end_time := s.end_time_unix_nano
    duration_ms := spanDuration s
    kind := s.kind
    attributes := s.attributes
    service_name := match s.service_name with
      | some sv => if sv = "" then "unknown-service" else sv
      | none => "unknown-service" }

/-- `ORDER BY start_time_unix_nano ASC` modelled as a stable sort. -/
def startLE (a b : StoredSpan) : Prop :=
  a.start_time_unix_nano ≤ b.start_time_unix_nano

instance : DecidableRel startLE := fun a b =>
  inferInstanceAs (Decidable (a.start_time_unix_nano ≤ b.start_time_unix_nano))

/-- Stable sort by ascending start time (SQL leaves the relative order of
equal keys unspecified; the model fixes the stable one). -/
def sortSpansByStart (l : List StoredSpan) : List StoredSpan :=
  l.insertionSort startLE

/-- `SELECT ... FROM spans WHERE trace_id = $1` (before ordering). -/
def spansOfTrace (spans : List StoredSpan) (tid : String) : List StoredSpan :=
  spans.filter (fun s => s.trace_id = tid)

/-- The trace-detail response envelope (`DatabaseResponse.to_dict` with the
trace-level extras; the extras are absent on the empty-trace path). -/
structure TraceDetail where
  success : Bool
  rows : List SpanOut
  count : Nat
  error : Option String
  trace_id : String
  start_time : Option Int
  end_time : Option Int
  duration_ms : Option Rat
  service_name : Option String
  operation_name : Option String
deriving DecidableEq

/-- `database.get_trace_detail`: fetch the trace's spans ordered by start
time ascending; an empty result is a success envelope with zero rows.
Otherwise build the span dicts, pick the root span (first span whose parent
id is falsy, else the first span), and report trace-level start (first
span's start), end (last span's end), duration (sum of the per-span
durations) and the root's service/operation names. -/
def get_trace_detail (spans : List StoredSpan) (trace_id : String) : TraceDetail :=
  match sortSpansByStart (spansOfTrace spans trace_id) with
  | [] =>
    { success := true, rows := [], count := 0, error := none, trace_id := trace_id
      start_time := none, end_time := none, duration_ms := none
      service_name := none, operation_name := none }
  | f :: fs =>
    let span_list := (f :: fs).map mkSpanOut
    let root_span := (span_list.find? (fun sp => noParent sp.parent_span_id)).getD (mkSpanOut f)
    { success := true
      rows := span_list
      count := span_list.length
      error := none
      trace_id := trace_id
      start_time := some (mkSpanOut f).start_time
      end_time := some (span_list.getLastD (mkSpanOut f)).end_time
      duration_ms := some (span_list.map (fun sp => sp.duration_ms)).sum
      service_name := some root_span.service_name
      operation_name := some root_span.name }

/-- `parent_span_id IS NULL OR parent_span_id = ''` (the root test of the
summary query). -/
def isRootRow (s : StoredSpan) : Bool := noParent s.parent_span_id

/-- Lexicographic comparison of character sequences by code point. -/
def charsLe : Chars → Chars → Bool
  | [], _ => true
  | _ :: _, [] => false
  | a :: as, b :: bs =>
    if a.toNat < b.toNat then true
    else if b.toNat < a.toNat then false
    else charsLe as bs

/-- Text comparison as the store orders text (code-point lexicographic;
locale collations are abstracted by this deterministic order). -/
def strLe (a b : String) : Bool := charsLe a.data b.data

/-- SQL `MAX` over a set of text values (`NULL`s already removed). -/
def sqlMax (l : List String) : Option String :=
  l.foldl (fun acc s => match acc with
    | none => some s
    | some t => some (if strLe t s then s else t)) none

/-- Python `a or b` for an optional string `a`: `None` and `""` fall
through to `b`. -/
def pyOr (a : Option String) (b : String) : String :=
  match a with
  | some s => if s = "" then b else s
  | none => b

/-- Python 3 `round(x, 2)`: scale by 100, round to the nearest integer
with ties to even, and unscale.  `f` is the floor of `100 x`; comparing
twice the remainder against the denominator decides whether the fractional
part is below, above, or exactly one half. -/
def pyRound2 (x : Rat) : Rat :=
  let num := x.num * 100
  let den : Int := (x.den : Int)
  let f := Int.fdiv num den
  let r2 := 2 * (num - f * den)
  let n := if r2 < den then f
           else if den < r2 then f + 1
           else if f % 2 = 0 then f else f + 1
  mkRat n 100

/-- One trace summary dict of the paginated listing. -/
structure TraceSummary where
  trace_id : String
  span_count : Nat
  start_time : Int
  end_time : Int
  duration_ms : Rat
  name : String
  service_name : String
deriving DecidableEq

/-- The row the `GROUP BY trace_id` summary query produces for one group
(always nonempty), plus the Python-side fallbacks of the listing loop:
`root_operation or any_operation or "unknown-operation"` and likewise for
the service; the duration is `round(x, 2) if x else 0`. -/
def summarizeGroup : List StoredSpan → Option TraceSummary
  | [] => none
  | s :: rest =>
    let g := s :: rest
    let minStart := rest.foldl (fun a x => min a x.start_time_unix_nano) s.start_time_unix_nano
    let maxEnd := rest.foldl (fun a x => max a x.end_time_unix_nano) s.end_time_unix_nano
    let dur : Rat := mkRat (maxEnd - minStart) 1000
    let root_operation := sqlMax ((g.filter isRootRow).map (fun x => x.name))
    let root_service := sqlMax ((g.filter isRootRow).filterMap (fun x => x.service_name))
    let any_operation := sqlMax (g.map (fun x => x.name))
    let any_service := sqlMax (g.filterMap (fun x => x.service_name))
    some { trace_id := s.trace_id
           span_count := g.length
           start_time := minStart
           end_time := maxEnd
           duration_ms := if dur = 0 then 0 else pyRound2 dur
           name := pyOr root_operation (pyOr any_operation "unknown-operation")
           service_name := pyOr root_service (pyOr any_service "unknown-service") }

/-- `ORDER BY MIN(start_time_unix_nano) DESC` on the summaries. -/
def summaryOrder (a b : TraceSummary) : Prop := b.start_time ≤ a.start_time

instance : DecidableRel summaryOrder := fun a b =>
  inferInstanceAs (Decidable (b.start_time ≤ a.start_time))

/-- The pagination metadata block. -/
structure Pagination where
  offset : Int
  limit : Int
  total : Nat
  has_next : Bool
  has_prev : Bool
deriving DecidableEq

/-- The trace-listing response envelope. -/
structure PaginatedTraces where
  success : Bool
  rows : List TraceSummary
  count : Nat
  error : Option String
  pagination : Pagination
deriving DecidableEq

/-- `SELECT COUNT(DISTINCT trace_id)` over the rows matching the filters. -/
def countDistinctTraces (spans : List StoredSpan) (flt : StoredSpan → Bool) : Nat :=
  (((spans.filter flt).map (fun s => s.trace_id)).dedup).length

/-- `database.get_traces_paginated`.  The optional `WHERE` clause (shared
verbatim by the summary query and the count query) is modelled by the row
predicate `flt`.  A negative `OFFSET`/`LIMIT` makes PostgreSQL raise, which
the handler converts to an error envelope with zeroed pagination; otherwise
group the matching rows by trace id, summarize each group, order by
earliest start descending, and slice the page. -/
def get_traces_paginated (spans : List StoredSpan) (flt : StoredSpan → Bool)
    (offset limit : Int) : PaginatedTraces :=
  if offset < 0 ∨ limit < 0 then
    { success := false, rows := [], count := 0
      error := some "OFFSET must not be negative"
      pagination := { offset := offset, limit := limit, total := 0
                      has_next := false, has_prev := false } }
  else
    let matching := spans.filter flt
    let tids := (matching.map (fun s => s.trace_id)).dedup
    let groups := tids.map (fun tid => matching.filter (fun s => s.trace_id = tid))
    let summaries := groups.filterMap summarizeGroup
    let sorted := summaries.insertionSort summaryOrder
    let page := (sorted.drop offset.toNat).take limit.toNat
    let total := countDistinctTraces spans flt
    { success := true
      rows := page
      count := page.length
      error := none
      pagination := { offset := offset, limit := limit, total := total
                      has_next := decide (offset + limit < (total : Int))
                      has_prev := decide (0 < offset) } }

/-! ## Helper lemmas -/

/-- `getLastD` commutes with `map` when the default is mapped too. -/
theorem map_getLastD {α β : Type} (f : α → β) (l : List α) (d : α) :
    (l.map f).getLastD (f d) = f (l.getLastD d) := by
  induction l generalizing d with
  | nil => rfl
  | cons a t ih => simp only [List.map_cons, List.getLastD_cons, ih]

/-- In a list sorted by a reflexive relation, every element is related to
the last one. -/
theorem sorted_rel_getLast {α : Type} {r : α → α → Prop} (hrefl : ∀ a, r a a)
    {l : List α} (hs : List.Sorted r l) {y : α} (hy : l.getLast? = some y) :
    ∀ x ∈ l, r x y := by
  induction l with
  | nil => intro x hx; cases hx
  | cons a t ih =>
    intro x hx
    cases t with
    | nil =>
      simp at hy hx
      rw [hx, ← hy]
      exact hrefl a
    | cons b t' =>
      rw [List.getLast?_cons_cons] at hy
      have hyt : y ∈ b :: t' := by
        obtain ⟨hne, rfl⟩ := List.mem_getLast?_eq_getLast (Option.mem_def.mpr hy)
        exact List.getLast_mem hne
      rcases List.mem_cons.mp hx with rfl | hxt
      · exact (List.sorted_cons.mp hs).1 y hyt
      · exact ih (List.sorted_cons.mp hs).2 hy x hxt

/-! ## C1: the bulk writer never raises to its caller -/

/-- C1: for every batch of flat span records, `insert_spans_batch` raises
no exception to its caller: whatever the storage outcome, it returns a
success value; an empty batch is a no-op; a storage error is caught and
swallowed (the table is simply left unchanged); consequently the ingestion
endpoint `receive_traces` always answers the partial-success envelope. -/
theorem insert_spans_batch_always_succeeds (outcome : StorageOutcome)
    (table spans_data : List SpanRecord) (m : String) (req : TraceRequest) :
    (∃ t, insert_spans_batch outcome table spans_data = .ok t)
    ∧ insert_spans_batch outcome table [] = .ok table
    ∧ insert_spans_batch (.err m) table spans_data = .ok table
    ∧ (∃ t, receive_traces outcome table req = .ok (t, "partialSuccess")) := by
  have base : ∀ (oc : StorageOutcome) (sd : List SpanRecord),
      ∃ t, insert_spans_batch oc table sd = .ok t := by
    intro oc sd
    unfold insert_spans_batch copy_records_to_table
    cases oc <;> cases sd <;> simp
  refine ⟨base outcome spans_data, rfl, ?_, ?_⟩
  · unfold insert_spans_batch copy_records_to_table
    cases spans_data <;> simp
  · obtain ⟨t, ht⟩ := base outcome (serialize_spans_for_db req)
    exact ⟨t, by unfold receive_traces; rw [ht]⟩

/-! ## C4: the ingestion transform is one record per span, ids preserved -/

/-- C4: `serialize_spans_for_db` emits exactly one flat record per incoming
span — its output, projected to (trace id, span id, parent span id),
coincides with the payload's spans in walk order, so in particular the
output length is the total number of spans across all resources and
scopes. -/
theorem serialize_spans_count_and_ids (req : TraceRequest) :
    (serialize_spans_for_db req).map (fun r => (r.trace_id, r.span_id, r.parent_span_id))
      = (allSpans req).map (fun s => (s.trace_id, s.span_id, s.parent_span_id))
    ∧ (serialize_spans_for_db req).length = (allSpans req).length := by
  have h : (serialize_spans_for_db req).map (fun r => (r.trace_id, r.span_id, r.parent_span_id))
      = (allSpans req).map (fun s => (s.trace_id, s.span_id, s.parent_span_id)) := by
    unfold serialize_spans_for_db allSpans
    simp [List.map_flatMap, List.map_map]
    rfl
  refine ⟨h, ?_⟩
  have hl := congrArg List.length h
  simpa using hl

/-! ## C9: a trace with no stored spans is an empty success, not an error -/

/-- C9: for a trace id with no stored spans, `get_trace_detail` returns a
success envelope — `success = true`, zero rows, `count = 0`, no error —
carrying the requested trace id and no trace-level aggregates. -/
theorem trace_detail_missing_trace (spans : List StoredSpan) (tid : String)
    (h : spansOfTrace spans tid = []) :
    get_trace_detail spans tid =
      { success := true, rows := [], count := 0, error := none, trace_id := tid
        start_time := none, end_time := none, duration_ms := none
        service_name := none, operation_name := none } := by
  unfold get_trace_detail
  rw [h]
  rfl

/-- C9 witness: an empty store has no spans for trace id `missing`. -/
theorem trace_detail_missing_trace_witness :
    get_trace_detail [] "missing" =
      { success := true, rows := [], count := 0, error := none, trace_id := "missing"
        start_time := none, end_time := none, duration_ms := none
        service_name := none, operation_name := none } :=
  trace_detail_missing_trace [] "missing" rfl

/-! ## C2: trace-level duration is the sum of per-span durations -/

/-- C2: for every non-empty trace, the trace-level `duration_ms` of
`get_trace_detail` is the literal sum of every span's individual
`duration_ms` (not the difference between the trace's maximum end and
minimum start). -/
theorem trace_detail_duration_is_sum (spans : List StoredSpan) (tid : String)
    (h : spansOfTrace spans tid ≠ []) :
    (get_trace_detail spans tid).duration_ms =
      some (((spansOfTrace spans tid).map spanDuration).sum) := by
  have hperm : List.Perm (sortSpansByStart (spansOfTrace spans tid)) (spansOfTrace spans tid) :=
    List.perm_insertionSort _ _
  cases hs : sortSpansByStart (spansOfTrace spans tid) with
  | nil =>
    rw [hs] at hperm
    exact absurd hperm.symm.eq_nil h
  | cons f fs =>
    rw [hs] at hperm
    have hsum : ((f :: fs).map spanDuration).sum
        = ((spansOfTrace spans tid).map spanDuration).sum :=
      (hperm.map spanDuration).sum_eq
    unfold get_trace_detail
    rw [hs]
    show some ((((f :: fs).map mkSpanOut).map (fun sp => sp.duration_ms)).sum) = _
    rw [List.map_map]
    exact congrArg some hsum

/-- C2 witness: a trace of two spans (durations 150 ms and 50 ms) reports
the sum 200 ms. -/
def c2a : StoredSpan :=
  { id := 1, trace_id := "t", span_id := "a", parent_span_id := none, name := "root"
    start_time_unix_nano := 0, end_time_unix_nano := 150000, kind := 2
    attributes := [], service_name := some "checkout" }

def c2b : StoredSpan :=
  { id := 2, trace_id := "t", span_id := "b", parent_span_id := some "a", name := "db.query"
    start_time_unix_nano := 10000, end_time_unix_nano := 60000, kind := 3
    attributes := [], service_name := some "checkout" }

theorem trace_detail_duration_is_sum_witness :
    (get_trace_detail [c2a, c2b] "t").duration_ms =
      some (((spansOfTrace [c2a, c2b] "t").map spanDuration).sum) :=
  trace_detail_duration_is_sum [c2a, c2b] "t" (by decide)

/-! ## C10: trace-level end time is the last-by-start span's end -/

/-- C10: for every non-empty trace, the trace-level `end_time` of
`get_trace_detail` is the end timestamp of the last span in start-time
ascending order (a span with maximal start time), not the maximum end
timestamp over all spans; so whenever an earlier-starting span ends later,
the reported end time precedes that span's (and hence the trace's true
latest) end. -/
theorem trace_detail_end_time_last_span (spans : List StoredSpan) (tid : String)
    (h : spansOfTrace spans tid ≠ []) :
    ∃ ls : StoredSpan,
      (sortSpansByStart (spansOfTrace spans tid)).getLast? = some ls
      ∧ (get_trace_detail spans tid).end_time = some ls.end_time_unix_nano
      ∧ (∀ x ∈ spansOfTrace spans tid,
          x.start_time_unix_nano ≤ ls.start_time_unix_nano)
      ∧ (∀ x ∈ spansOfTrace spans tid,
          ls.end_time_unix_nano < x.end_time_unix_nano →
            ∃ e, (get_trace_detail spans tid).end_time = some e
              ∧ e < x.end_time_unix_nano) := by
  haveI : IsTotal StoredSpan startLE := ⟨fun a b => Int.le_total _ _⟩
  haveI : IsTrans StoredSpan startLE := ⟨fun _ _ _ => Int.le_trans⟩
  have hperm : List.Perm (sortSpansByStart (spansOfTrace spans tid)) (spansOfTrace spans tid) :=
    List.perm_insertionSort _ _
  have hsorted : List.Sorted startLE (sortSpansByStart (spansOfTrace spans tid)) :=
    List.sorted_insertionSort startLE _
  cases hs : sortSpansByStart (spansOfTrace spans tid) with
  | nil =>
    rw [hs] at hperm
    exact absurd hperm.symm.eq_nil h
  | cons f fs =>
    rw [hs] at hperm hsorted
    have hne : (f :: fs) ≠ [] := List.cons_ne_nil f fs
    have hlast : (f :: fs).getLast? = some ((f :: fs).getLast hne) :=
      List.getLast?_eq_getLast_of_ne_nil hne
    have hrel : ∀ x ∈ (f :: fs), startLE x ((f :: fs).getLast hne) :=
      sorted_rel_getLast (r := startLE) (fun a => Int.le_refl _) hsorted hlast
    have hend : (get_trace_detail spans tid).end_time
        = some ((f :: fs).getLast hne).end_time_unix_nano := by
      unfold get_trace_detail
      rw [hs]
      show some ((((f :: fs).map mkSpanOut).getLastD (mkSpanOut f)).end_time) = _
      rw [map_getLastD, List.getLastD_eq_getLast?, hlast]
      rfl
    refine ⟨(f :: fs).getLast hne, hlast, hend, ?_, ?_⟩
    · intro x hx
      exact hrel x (hperm.mem_iff.mpr hx)
    · intro x _ hlt
      exact ⟨((f :: fs).getLast hne).end_time_unix_nano, hend, hlt⟩

/-- C10 witness: the first span starts at 0 and ends at 1 s; the second
starts later (10 ms) but ends at 60 ms, so the reported trace end time is
60 ms, before the true latest end. -/
def c10a : StoredSpan :=
  { id := 1, trace_id := "t", span_id := "a", parent_span_id := none, name := "root"
    start_time_unix_nano := 0, end_time_unix_nano := 1000000, kind := 2
    attributes := [], service_name := some "svc" }

def c10b : StoredSpan :=
  { id := 2, trace_id := "t", span_id := "b", parent_span_id := some "a", name := "child"
    start_time_unix_nano := 10000, end_time_unix_nano := 60000, kind := 3
    attributes := [], service_name := some "svc" }

theorem trace_detail_end_time_last_span_witness :
    ∃ ls : StoredSpan,
      (sortSpansByStart (spansOfTrace [c10a, c10b] "t")).getLast? = some ls
      ∧ (get_trace_detail [c10a, c10b] "t").end_time = some ls.end_time_unix_nano
      ∧ (∀ x ∈ spansOfTrace [c10a, c10b] "t",
          x.start_time_unix_nano ≤ ls.start_time_unix_nano)
      ∧ (∀ x ∈ spansOfTrace [c10a, c10b] "t",
          ls.end_time_unix_nano < x.end_time_unix_nano →
            ∃ e, (get_trace_detail [c10a, c10b] "t").end_time = some e
              ∧ e < x.end_time_unix_nano) :=
  trace_detail_end_time_last_span [c10a, c10b] "t" (by decide)

/-! ## C8: zero computed duration falls back to the duration_ms attribute -/

/-- C8: in `get_trace_detail`, a span whose computed end-minus-start
duration is exactly zero and whose attributes hold a numeric `duration_ms`
reports that attribute value as its duration; a span with a non-zero
computed duration always reports the computed value, never the attribute. -/
theorem trace_detail_duration_fallback (spans : List StoredSpan) (tid : String)
    (o : SpanOut) (ho : o ∈ (get_trace_detail spans tid).rows) :
    (o.end_time = o.start_time →
        ∀ n : Int, dictGet o.attributes "duration_ms" = some (.int n) →
          o.duration_ms = (n : Rat))
    ∧ (o.end_time = o.start_time →
        ∀ q : Rat, dictGet o.attributes "duration_ms" = some (.float q) →
          o.duration_ms = q)
    ∧ (o.end_time ≠ o.start_time →
        o.duration_ms = ((o.end_time - o.start_time : Int) : Rat) / 1000) := by
  have hmk : ∃ s : StoredSpan, o = mkSpanOut s := by
    unfold get_trace_detail at ho
    cases hs : sortSpansByStart (spansOfTrace spans tid) with
    | nil => rw [hs] at ho; simp at ho
    | cons f fs =>
      rw [hs] at ho
      have : o ∈ (f :: fs).map mkSpanOut := ho
      obtain ⟨s, _, hso⟩ := List.mem_map.mp this
      exact ⟨s, hso.symm⟩
  obtain ⟨s, rfl⟩ := hmk
  have hmk1000 : (1000 : Nat) ≠ 0 := by norm_num
  have hzero : s.end_time_unix_nano = s.start_time_unix_nano →
      mkRat (s.end_time_unix_nano - s.start_time_unix_nano) 1000 = 0 := by
    intro he
    rw [he, sub_self]
    exact Rat.zero_mkRat 1000
  have hnonzero : s.end_time_unix_nano ≠ s.start_time_unix_nano →
      mkRat (s.end_time_unix_nano - s.start_time_unix_nano) 1000 ≠ 0 := by
    intro hne hz
    exact hne (sub_eq_zero.mp ((Rat.mkRat_eq_zero hmk1000).mp hz))
  refine ⟨?_, ?_, ?_⟩
  · intro he n hattr
    have hattr' : dictGet s.attributes "duration_ms" = some (.int n) := hattr
    show spanDuration s = (n : Rat)
    unfold spanDuration
    rw [if_pos (hzero he), hattr']
    simp [pyFloat]
  · intro he q hattr
    have hattr' : dictGet s.attributes "duration_ms" = some (.float q) := hattr
    show spanDuration s = q
    unfold spanDuration
    rw [if_pos (hzero he), hattr']
    simp [pyFloat]
  · intro hne
    show spanDuration s
      = (((mkSpanOut s).end_time - (mkSpanOut s).start_time : Int) : Rat) / 1000
    unfold spanDuration
    rw [if_neg (hnonzero hne), Rat.mkRat_eq_div]
    norm_num
    rfl

/-- C8 witness: a span with equal start and end timestamps and attribute
`duration_ms = 42` reports 42 ms; its sibling with a real 50 ms computed
duration keeps the computed value even though it also carries the
attribute. -/
def c8a : StoredSpan :=
  { id := 1, trace_id := "t", span_id := "a", parent_span_id := none, name := "instant"
    start_time_unix_nano := 5000, end_time_unix_nano := 5000, kind := 1
    attributes := [("duration_ms", .int 42)], service_name := some "svc" }

def c8b : StoredSpan :=
  { id := 2, trace_id := "t", span_id := "b", parent_span_id := some "a", name := "real"
    start_time_unix_nano := 5000, end_time_unix_nano := 55000, kind := 1
    attributes := [("duration_ms", .int 42)], service_name := some "svc" }

theorem trace_detail_duration_fallback_witness :
    (mkSpanOut c8a).duration_ms = ((42 : Int) : Rat)
    ∧ (mkSpanOut c8b).duration_ms =
        (((mkSpanOut c8b).end_time - (mkSpanOut c8b).start_time : Int) : Rat) / 1000 :=
  ⟨(trace_detail_duration_fallback [c8a, c8b] "t" (mkSpanOut c8a) (by decide)).1
      (by decide) 42 (by decide),
   (trace_detail_duration_fallback [c8a, c8b] "t" (mkSpanOut c8b) (by decide)).2.2
      (by decide)⟩

/-! ## C3: pagination metadata invariant -/

def c3Span : StoredSpan :=
  { id := 1, trace_id := "t1", span_id := "s1", parent_span_id := none, name := "op"
    start_time_unix_nano := 0, end_time_unix_nano := 1000, kind := 1
    attributes := [], service_name := some "svc" }

/-- C3 counterexample: at `offset = -1`, `limit = 1` over a store holding
one trace, PostgreSQL rejects the negative `OFFSET`, the handler returns
the error envelope, and `has_next` is `false` even though
`offset + limit < total` (0 < 1) holds; so the invariant as claimed for
every offset/limit fails. -/
theorem pagination_invariant_cex :
    ¬ (((get_traces_paginated [c3Span] (fun _ => true) (-1) 1).pagination.has_next = true)
        ↔ ((-1 : Int) + 1 < (countDistinctTraces [c3Span] (fun _ => true) : Int))) := by
  decide

/-- C3 (amended): for every non-negative offset and limit,
`get_traces_paginated` reports `has_next = (offset + limit < total)` and
`has_prev = (offset > 0)`, where `total` is the count of distinct matching
traces.  (For a negative offset or limit the store rejects the query and
the error envelope carries `has_next = has_prev = false`.) -/
theorem pagination_invariant_amended (spans : List StoredSpan) (flt : StoredSpan → Bool)
    (offset limit : Int) (hoff : 0 ≤ offset) (hlim : 0 ≤ limit) :
    ((get_traces_paginated spans flt offset limit).pagination.has_next = true
      ↔ offset + limit < (countDistinctTraces spans flt : Int))
    ∧ ((get_traces_paginated spans flt offset limit).pagination.has_prev = true
      ↔ 0 < offset) := by
  have hcond : ¬ (offset < 0 ∨ limit < 0) := by omega
  unfold get_traces_paginated
  rw [if_neg hcond]
  constructor
  · simp
  · simp

/-- C3 witness: at `offset = 0`, `limit = 1` over the same store,
`has_next` is false (0 + 1 < 1 fails) and `has_prev` is false. -/
theorem pagination_invariant_amended_witness :
    ((get_traces_paginated [c3Span] (fun _ => true) 0 1).pagination.has_next = true
      ↔ (0 : Int) + 1 < (countDistinctTraces [c3Span] (fun _ => true) : Int))
    ∧ ((get_traces_paginated [c3Span] (fun _ => true) 0 1).pagination.has_prev = true
      ↔ (0 : Int) < 0) :=
  pagination_invariant_amended [c3Span] (fun _ => true) 0 1 (by decide) (by decide)

/-! ## C5: the flattener's resolution order and last-occurrence-wins -/

/-- C5: `flatten_attributes` is total over the closed attribute-value
variant and maps each key to exactly one scalar: the key's value is the
extraction of the key's last occurrence in the input sequence, and the
extraction checks the string field, then the integer field, then the
float field, then the boolean field, and otherwise falls back to a debug
string of the whole value. -/
theorem flatten_attributes_last_wins (attrs : List OLTPAttribute) (k : String) :
    (dictGet (flatten_attributes attrs) k
      = (attrs.reverse.find? (fun a => a.key = k)).map (fun a => extractValue a.value))
    ∧ (∀ v : OLTPAttributeValue,
        (∀ s, v.stringValue = some s → extractValue v = .str s)
        ∧ (v.stringValue = none → ∀ n, v.intValue = some n → extractValue v = .int n)
        ∧ (v.stringValue = none → v.intValue = none →
            ∀ q, v.doubleValue = some q → extractValue v = .float q)
        ∧ (v.stringValue = none → v.intValue = none → v.doubleValue = none →
            ∀ b, v.boolValue = some b → extractValue v = .bool b)
        ∧ (v.stringValue = none → v.intValue = none → v.doubleValue = none →
            v.boolValue = none → extractValue v = .str (debugStr v))) := by
  constructor
  · have key : ∀ (l : List OLTPAttribute) (d : AttrDict),
        dictGet (l.foldl (fun acc attr => dictInsert acc attr.key (extractValue attr.value)) d) k
          = ((l.reverse.find? (fun a => a.key = k)).map
              (fun a => extractValue a.value)).or (dictGet d k) := by
      intro l
      induction l with
      | nil => intro d; simp
      | cons a rest ih =>
        intro d
        rw [List.foldl_cons, ih, List.reverse_cons, List.find?_append]
        cases hrest : rest.reverse.find? (fun a => a.key = k) with
        | some x => simp [Option.or]
        | none =>
          simp only [Option.or, dictGet_insert]
          by_cases hk : a.key = k
          · simp [List.find?, hk]
          · simp [List.find?, hk]
    have h0 := key attrs []
    simpa [flatten_attributes, dictGet] using h0
  · intro v
    refine ⟨?_, ?_, ?_, ?_, ?_⟩
    · intro s hs; simp [extractValue, hs]
    · intro h1 n h2; simp [extractValue, h1, h2]
    · intro h1 h2 q h3; simp [extractValue, h1, h2, h3]
    · intro h1 h2 h3 b h4; simp [extractValue, h1, h2, h3, h4]
    · intro h1 h2 h3 h4; simp [extractValue, h1, h2, h3, h4]

def c5v1 : OLTPAttributeValue := { stringValue := some "v" }

def c5v2 : OLTPAttributeValue := { intValue := some 7 }

/-- C5 witness: with the key `k` occurring twice, the extraction of the
last occurrence (an integer 7) wins; and the int branch fires exactly when
the string field is unpopulated. -/
theorem flatten_attributes_last_wins_witness :
    dictGet (flatten_attributes [⟨"k", c5v1⟩, ⟨"k", c5v2⟩]) "k" = some (.int 7)
    ∧ extractValue c5v2 = .int 7 := by
  constructor
  · rw [(flatten_attributes_last_wins [⟨"k", c5v1⟩, ⟨"k", c5v2⟩] "k").1]
    decide
  · exact ((flatten_attributes_last_wins [] "k").2 c5v2).2.1 rfl 7 rfl

/-! ## C7: root operation/service resolution in trace summaries -/

def c7root : StoredSpan :=
  { id := 1, trace_id := "t", span_id := "s1", parent_span_id := none, name := ""
    start_time_unix_nano := 0, end_time_unix_nano := 150000, kind := 2
    attributes := [], service_name := some "svc" }

def c7child : StoredSpan :=
  { id := 2, trace_id := "t", span_id := "s2", parent_span_id := some "s1", name := "z"
    start_time_unix_nano := 10000, end_time_unix_nano := 60000, kind := 3
    attributes := [], service_name := some "svc" }

/-- C7 counterexample: the trace `t` has exactly one span with no parent
(`c7root`), whose name is the empty string; the Python fallback
`root_operation or any_operation or ...` treats the empty string as falsy,
so the returned summary reports the lexicographically maximal name `z` of a
non-root span instead of the root's name. -/
theorem root_resolution_cex :
    ((([c7root, c7child].filter (fun _ => true)).filter
        (fun x => x.trace_id = "t")).filter isRootRow = [c7root])
    ∧ c7root.name = ""
    ∧ (get_traces_paginated [c7root, c7child] (fun _ => true) 0 50).rows.map
        (fun s => (s.trace_id, s.name)) = [("t", "z")]
    ∧ ("z" : String) ≠ c7root.name := by
  decide

/-- Any summary in the returned page is the summary of exactly the matching
rows that share its trace id. -/
theorem rows_summarize (spans : List StoredSpan) (flt : StoredSpan → Bool)
    (offset limit : Int) (s : TraceSummary)
    (hs : s ∈ (get_traces_paginated spans flt offset limit).rows) :
    summarizeGroup ((spans.filter flt).filter (fun x => x.trace_id = s.trace_id)) = some s := by
  unfold get_traces_paginated at hs
  by_cases hcond : offset < 0 ∨ limit < 0
  · rw [if_pos hcond] at hs
    simp at hs
  · rw [if_neg hcond] at hs
    replace hs : s ∈ ((((((spans.filter flt).map (fun x => x.trace_id)).dedup.map
        (fun tid => (spans.filter flt).filter (fun x => x.trace_id = tid))).filterMap
          summarizeGroup).insertionSort summaryOrder).drop offset.toNat).take limit.toNat := hs
    have h1 := List.drop_subset _ _ (List.take_subset _ _ hs)
    have h2 := (List.mem_insertionSort summaryOrder).mp h1
    obtain ⟨g, hg, hsum⟩ := List.mem_filterMap.mp h2
    obtain ⟨tid, _, rfl⟩ := List.mem_map.mp hg
    cases hcase : (spans.filter flt).filter (fun x => x.trace_id = tid) with
    | nil => rw [hcase] at hsum; simp [summarizeGroup] at hsum
    | cons x rest =>
      rw [hcase] at hsum
      have hlit := Option.some.inj hsum
      have hstid : s.trace_id = x.trace_id := by rw [← hlit]
      have hxmem : x ∈ (spans.filter flt).filter (fun x => x.trace_id = tid) := by
        rw [hcase]; exact List.mem_cons_self x rest
      have hxtid : x.trace_id = tid := by
        have := (List.mem_filter.mp hxmem).2
        simpa using this
      rw [hstid, hxtid, hcase, hsum]

/-- The name/service fields of a group summary, in terms of the group's
aggregates. -/
theorem summarizeGroup_name_service (g : List StoredSpan) (s : TraceSummary)
    (h : summarizeGroup g = some s) :
    s.name = pyOr (sqlMax ((g.filter isRootRow).map (fun x => x.name)))
        (pyOr (sqlMax (g.map (fun x => x.name))) "unknown-operation")
    ∧ s.service_name = pyOr (sqlMax ((g.filter isRootRow).filterMap (fun x => x.service_name)))
        (pyOr (sqlMax (g.filterMap (fun x => x.service_name))) "unknown-service") := by
  cases g with
  | nil => simp [summarizeGroup] at h
  | cons x rest =>
    have hlit := Option.some.inj h
    exact ⟨by rw [← hlit], by rw [← hlit]⟩

/-- C7 (amended): for every trace whose stored matching spans include
exactly one root span (null or empty parent id), the returned trace
summary reports that span's name as the root operation and that span's
service name as the root service, regardless of insertion order — provided
the root's name is non-empty and its service name is non-null and
non-empty.  (An empty root name or a null/empty root service is falsy in
the Python fallback chain and is replaced by the maximal name/service over
all of the trace's spans, as the counterexample shows.) -/
theorem root_resolution_amended (spans : List StoredSpan) (flt : StoredSpan → Bool)
    (offset limit : Int) (s : TraceSummary) (r : StoredSpan) (sv : String)
    (hs : s ∈ (get_traces_paginated spans flt offset limit).rows)
    (hroot : (((spans.filter flt).filter (fun x => x.trace_id = s.trace_id)).filter isRootRow)
      = [r])
    (hname : r.name ≠ "")
    (hsvc : r.service_name = some sv) (hsv : sv ≠ "") :
    s.name = r.name ∧ s.service_name = sv := by
  have hsum := rows_summarize spans flt offset limit s hs
  obtain ⟨hn, hsvc'⟩ := summarizeGroup_name_service _ s hsum
  rw [hroot] at hn hsvc'
  constructor
  · rw [hn]
    simp [sqlMax, pyOr, hname]
  · rw [hsvc']
    simp [sqlMax, pyOr, hsvc, hsv]

def c7wroot : StoredSpan :=
  { id := 1, trace_id := "t", span_id := "A", parent_span_id := none, name := "POST /pay"
    start_time_unix_nano := 0, end_time_unix_nano := 150000, kind := 2
    attributes := [], service_name := some "checkout" }

def c7wchild : StoredSpan :=
  { id := 2, trace_id := "t", span_id := "B", parent_span_id := some "A", name := "db.query"
    start_time_unix_nano := 10000, end_time_unix_nano := 60000, kind := 3
    attributes := [], service_name := some "checkout" }

def c7ws : TraceSummary :=
  { trace_id := "t", span_count := 2, start_time := 0, end_time := 150000
    duration_ms := 150, name := "POST /pay", service_name := "checkout" }

/-- C7 witness: a two-span trace whose unique root is `POST /pay` in
service `checkout`; the returned summary carries exactly those. -/
theorem root_resolution_amended_witness :
    c7ws.name = c7wroot.name ∧ c7ws.service_name = "checkout" :=
  root_resolution_amended [c7wroot, c7wchild] (fun _ => true) 0 50 c7ws c7wroot "checkout"
    (by decide) (by decide) (by decide) (by decide) (by decide)

/-! ## C6: span-name placeholder substitution

The spec describes the resolver's output as "the name with every
placeholder whose identifier exists in the mapping replaced by the string
form of its value; placeholders with no matching attribute left verbatim" —
a single simultaneous substitution.  `specResolve` below transcribes those
words (one left-to-right pass over the name, each placeholder replaced once
from the mapping); it is the spec-side definition to compare against the
source's fold of sequential `str.replace` calls. -/

/-- Spec-worded single-pass substitution: scan the name once; a placeholder
whose identifier is a key of the mapping is emitted as the string form of
its value, any other placeholder (and all other text) is emitted
verbatim. -/
def specResolveF : Nat → AttrDict → Chars → Chars
  | 0, _, s => s
  | _ + 1, _, [] => []
  | fuel + 1, attrs, c :: rest =>
    if c = '{' then
      let w := rest.takeWhile isWordChar
      if w.isEmpty then c :: specResolveF fuel attrs rest
      else
        match rest.drop w.length with
        | '}' :: after =>
          match dictGet attrs (String.mk w) with
          | some sc => (pyStr sc).data ++ specResolveF fuel attrs after
          | none => '{' :: (w ++ ('}' :: specResolveF fuel attrs after))
        | _ => c :: specResolveF fuel attrs rest
    else c :: specResolveF fuel attrs rest

/-- The spec's single-pass substitution over a name. -/
def specResolve (name : String) (attrs : AttrDict) : String :=
  String.mk (specResolveF name.data.length attrs name.data)

def c6attrs : AttrDict := [("a", .str "{b}"), ("b", .str "y")]

/-- C6 counterexample: with the mapping `a` to the string `{b}` and `b` to
`y`, replacing each placeholder of `{a}{b}` with the string form of its
value (and leaving nothing else) yields `{b}y`; the source instead replaces
sequentially, so the text just substituted for `{a}` is rewritten again by
the later replacement of `{b}`, producing `yy`. -/
theorem resolve_span_name_single_pass_cex :
    resolve_span_name "{a}{b}" c6attrs = "yy"
    ∧ specResolve "{a}{b}" c6attrs = "{b}y"
    ∧ ("yy" : String) ≠ "{b}y" := by
  refine ⟨by decide, by decide, by decide⟩

/-! Segment view of a name: alternating literal runs and placeholders.  A
name is well formed when its literal runs contain no left brace and its
placeholder identifiers are nonempty word-character runs; such names parse
unambiguously, and the amended claim is stated over them. -/

/-- A piece of a span name: literal text or a `\x7bvar\x7d` placeholder. -/
inductive Seg where
  | lit (s : Chars)
  | ph (v : Chars)
deriving DecidableEq

/-- The text of one segment. -/
def renderSeg : Seg → Chars
  | .lit s => s
  | .ph v => mkPat v

/-- The text of a segment list. -/
def render (segs : List Seg) : Chars := (segs.map renderSeg).flatten

/-- The placeholder identifiers of a segment list, in order. -/
def phVars (segs : List Seg) : List Chars :=
  segs.filterMap (fun sg => match sg with | .ph v => some v | .lit _ => none)

/-- Well-formedness of one segment: literals hold no left brace (every
brace in the name belongs to a placeholder), placeholder identifiers are
nonempty word-character runs. -/
def segWF : Seg → Prop
  | .lit s => '{' ∉ s
  | .ph v => v ≠ [] ∧ v.all isWordChar = true

instance : DecidablePred segWF := fun sg =>
  match sg with
  | .lit s => inferInstanceAs (Decidable ('{' ∉ s))
  | .ph v => inferInstanceAs (Decidable (v ≠ [] ∧ v.all isWordChar = true))

/-- Well-formedness of a segment list. -/
def WFsegs (segs : List Seg) : Prop := ∀ sg ∈ segs, segWF sg

/-- One segment after the simultaneous substitution the spec describes:
a placeholder whose identifier is a key becomes the string form of its
value, anything else is untouched. -/
def substSegFun (attrs : AttrDict) : Seg → Seg
  | .lit s => .lit s
  | .ph v =>
    match dictGet attrs (String.mk v) with
    | some sc => .lit (pyStr sc).data
    | none => .ph v

/-- The spec-described output over the segment view. -/
def renderSubst (attrs : AttrDict) (segs : List Seg) : Chars :=
  render (segs.map (substSegFun attrs))

/-- The effect of one `str.replace` of pattern `\x7bv\x7d` on the segment
view: exactly the `v` placeholders become literal replacement text. -/
def replacePh (v rep : Chars) : Seg → Seg
  | .lit s => .lit s
  | .ph w => if w = v then .lit rep else .ph w

theorem word_ne_lbrace {c : Char} (h : isWordChar c = true) : c ≠ '{' := by
  intro e; subst e; exact absurd h (by decide)

theorem word_ne_rbrace {c : Char} (h : isWordChar c = true) : c ≠ '}' := by
  intro e; subst e; exact absurd h (by decide)

/-- `takeWhile` reads at most the whole list. -/
theorem takeWhile_length_le (p : Char → Bool) (l : Chars) :
    (l.takeWhile p).length ≤ l.length := by
  induction l with
  | nil => simp [List.takeWhile]
  | cons a t ih =>
    by_cases h : p a
    · simp only [List.takeWhile_cons, h, if_true, List.length_cons]
      omega
    · simp [List.takeWhile_cons, h]

/-- A word run followed by a non-word character is what `takeWhile` reads. -/
theorem takeWhile_word_stop (u : Chars) (c : Char) (t : Chars)
    (hu : u.all isWordChar = true) (hc : isWordChar c = false) :
    (u ++ c :: t).takeWhile isWordChar = u := by
  induction u with
  | nil => simp [List.takeWhile_cons, hc]
  | cons a u' ih =>
    simp only [List.all_cons, Bool.and_eq_true] at hu
    obtain ⟨ha, hu'⟩ := hu
    simp [List.takeWhile_cons, ha, ih hu']

/-- `findVarsF` does not depend on the fuel once it covers the text. -/
theorem findVarsF_fuel (f1 : Nat) :
    ∀ (f2 : Nat) (s : Chars), s.length ≤ f1 → s.length ≤ f2 →
      findVarsF f1 s = findVarsF f2 s := by
  induction f1 with
  | zero =>
    intro f2 s h1 _
    have : s = [] := List.length_eq_zero.mp (Nat.le_zero.mp h1)
    subst this
    cases f2 <;> rfl
  | succ f1 ih =>
    intro f2 s h1 h2
    cases s with
    | nil => cases f2 <;> rfl
    | cons c rest =>
      cases f2 with
      | zero => simp at h2
      | succ g =>
        have hr1 : rest.length ≤ f1 := by simpa using h1
        have hr2 : rest.length ≤ g := by simpa using h2
        show findVarsF (f1 + 1) (c :: rest) = findVarsF (g + 1) (c :: rest)
        simp only [findVarsF]
        by_cases hc : c = '{'
        · rw [if_pos hc, if_pos hc]
          by_cases hw : (rest.takeWhile isWordChar).isEmpty
          · rw [if_pos hw, if_pos hw]
            exact ih g rest hr1 hr2
          · rw [if_neg hw, if_neg hw]
            cases hd : rest.drop (rest.takeWhile isWordChar).length with
            | nil => exact ih g rest hr1 hr2
            | cons d after =>
              show (if d = '}' then List.takeWhile isWordChar rest :: findVarsF f1 after
                    else findVarsF f1 rest)
                  = (if d = '}' then List.takeWhile isWordChar rest :: findVarsF g after
                    else findVarsF g rest)
              by_cases hdc : d = '}'
              · rw [if_pos hdc, if_pos hdc]
                have hlen : after.length < rest.length := by
                  have h3 := congrArg List.length hd
                  rw [List.length_drop] at h3
                  have h4 : (rest.takeWhile isWordChar).length ≤ rest.length :=
                    takeWhile_length_le _ _
                  have h5 : ¬ ((rest.takeWhile isWordChar).length = 0) := by
                    intro h0
                    exact hw (by simpa [List.isEmpty_iff, List.length_eq_zero] using h0)
                  simp at h3
                  omega
                have ha1 : after.length ≤ f1 := by omega
                have ha2 : after.length ≤ g := by omega
                rw [ih g after ha1 ha2]
              · rw [if_neg hdc, if_neg hdc]
                exact ih g rest hr1 hr2
        · rw [if_neg hc, if_neg hc]
          exact ih g rest hr1 hr2

/-- Scanning past a block with no left brace finds nothing in it. -/
theorem findVarsF_skip (u : Chars) (h : '{' ∉ u) :
    ∀ (t : Chars) (fuel : Nat), (u ++ t).length ≤ fuel →
      findVarsF fuel (u ++ t) = findVarsF fuel t := by
  induction u with
  | nil => intro t fuel _; rfl
  | cons a u' ih =>
    intro t fuel hlen
    cases fuel with
    | zero => simp at hlen
    | succ f =>
      have ha : ¬ (a = '{') := by
        intro e; subst e; exact h (List.mem_cons_self _ _)
      have hu' : '{' ∉ u' := fun hm => h (List.mem_cons_of_mem _ hm)
      have hlen' : (u' ++ t).length ≤ f := by
        simpa using Nat.le_of_succ_le_succ (by simpa using hlen)
      show findVarsF (f + 1) (a :: (u' ++ t)) = findVarsF (f + 1) t
      simp only [findVarsF]
      rw [if_neg ha, ih hu' t f hlen']
      exact findVarsF_fuel f (f + 1) t
        (le_trans (by simp) hlen')
        (le_trans (le_trans (by simp) hlen') (Nat.le_succ f))

/-- Scanning the text of a well-formed segment list finds exactly its
placeholder identifiers, in order. -/
theorem findVars_render_aux :
    ∀ (segs : List Seg), WFsegs segs →
      ∀ fuel, (render segs).length ≤ fuel →
        findVarsF fuel (render segs) = phVars segs := by
  intro segs
  induction segs with
  | nil =>
    intro _ fuel _
    cases fuel <;> rfl
  | cons sg rest ih =>
    intro hwf fuel hlen
    have hwrest : WFsegs rest := fun x hx => hwf x (List.mem_cons_of_mem _ hx)
    cases sg with
    | lit s =>
      have hs : '{' ∉ s := hwf (.lit s) (List.mem_cons_self _ _)
      have hrender : render (Seg.lit s :: rest) = s ++ render rest := by
        simp [render, renderSeg]
      rw [hrender] at hlen ⊢
      rw [findVarsF_skip s hs (render rest) fuel hlen]
      have hph : phVars (Seg.lit s :: rest) = phVars rest := by simp [phVars]
      rw [hph]
      exact ih hwrest fuel (le_trans (by simp) hlen)
    | ph v =>
      obtain ⟨hvne, hvw⟩ : v ≠ [] ∧ v.all isWordChar = true :=
        hwf (.ph v) (List.mem_cons_self _ _)
      have hrender : render (Seg.ph v :: rest) = '{' :: (v ++ ('}' :: render rest)) := by
        simp [render, renderSeg, mkPat]
      rw [hrender] at hlen ⊢
      cases fuel with
      | zero => simp at hlen
      | succ f =>
        have htw : (v ++ ('}' :: render rest)).takeWhile isWordChar = v :=
          takeWhile_word_stop v '}' (render rest) hvw (by decide)
        have hdrop : (v ++ ('}' :: render rest)).drop v.length = '}' :: render rest :=
          List.drop_left v ('}' :: render rest)
        have hvemp : v.isEmpty = false := by
          cases v with
          | nil => exact absurd rfl hvne
          | cons a t => rfl
        simp only [findVarsF, htw, hdrop, hvemp, if_pos rfl]
        show (if '}' = '}' then v :: findVarsF f (render rest) else findVarsF f (v ++ ('}' :: render rest))) = phVars (Seg.ph v :: rest)
        rw [if_pos rfl]
        have hlen' : (render rest).length ≤ f := by
          have := hlen
          simp at this
          omega
        rw [ih hwrest f hlen']
        simp [phVars]

/-- `replaceAllF` does not depend on the fuel once it covers the text
(nonempty pattern). -/
theorem replaceAllF_fuel (pat rep : Chars) (hp : pat ≠ []) (f1 : Nat) :
    ∀ (f2 : Nat) (s : Chars), s.length ≤ f1 → s.length ≤ f2 →
      replaceAllF f1 pat rep s = replaceAllF f2 pat rep s := by
  induction f1 with
  | zero =>
    intro f2 s h1 _
    have hnil : s = [] := List.length_eq_zero.mp (Nat.le_zero.mp h1)
    subst hnil
    cases f2 <;> rfl
  | succ f1 ih =>
    intro f2 s h1 h2
    cases s with
    | nil => cases f2 <;> rfl
    | cons c rest =>
      cases f2 with
      | zero => simp at h2
      | succ g =>
        have hplen : 1 ≤ pat.length := by
          cases pat with
          | nil => exact absurd rfl hp
          | cons _ _ => simp
        show replaceAllF (f1 + 1) pat rep (c :: rest) = replaceAllF (g + 1) pat rep (c :: rest)
        simp only [replaceAllF]
        by_cases hb : begins pat (c :: rest) = true
        · rw [if_pos hb, if_pos hb]
          have hdlen : ((c :: rest).drop pat.length).length ≤ f1 := by
            rw [List.length_drop]
            simp only [List.length_cons]
            simp only [List.length_cons] at h1
            omega
          have hdlen2 : ((c :: rest).drop pat.length).length ≤ g := by
            rw [List.length_drop]
            simp only [List.length_cons]
            simp only [List.length_cons] at h2
            omega
          rw [ih _ _ hdlen hdlen2]
        · rw [if_neg hb, if_neg hb]
          have hr1 : rest.length ≤ f1 := by simpa using h1
          have hr2 : rest.length ≤ g := by simpa using h2
          rw [ih _ _ hr1 hr2]

/-- A text that starts with the pattern passes the replacement test. -/
theorem begins_self_app (pat t : Chars) : begins pat (pat ++ t) = true := by
  induction pat with
  | nil => rfl
  | cons a ps ih => simp [begins, ih]

/-- `str.replace` copies a block holding no left brace unchanged (the
patterns built by the resolver all start with a left brace). -/
theorem replaceAllF_skip (v rep : Chars) :
    ∀ (u t : Chars) (fuel : Nat), (u ++ t).length ≤ fuel → '{' ∉ u →
      replaceAllF fuel (mkPat v) rep (u ++ t) = u ++ replaceAllF fuel (mkPat v) rep t := by
  intro u
  induction u with
  | nil => intro t fuel _ _; rfl
  | cons a u' ih =>
    intro t fuel hlen hnb
    cases fuel with
    | zero => simp at hlen
    | succ f =>
      have ha : a ≠ '{' := by
        intro e; subst e; exact hnb (List.mem_cons_self _ _)
      have hnb' : '{' ∉ u' := fun hm => hnb (List.mem_cons_of_mem _ hm)
      have hlen' : (u' ++ t).length ≤ f := by simpa using Nat.le_of_succ_le_succ (by simpa using hlen)
      have hb : begins (mkPat v) (a :: (u' ++ t)) = false := by
        show begins ('{' :: (v ++ ['}'])) (a :: (u' ++ t)) = false
        have hba : ('{' == a) = false := by
          rw [beq_eq_false_iff_ne]
          exact fun e => ha e.symm
        simp [begins, hba]
      have hbp : ¬ (begins (mkPat v) (a :: (u' ++ t)) = true) := by simp [hb]
      show replaceAllF (f + 1) (mkPat v) rep (a :: (u' ++ t))
          = (a :: u') ++ replaceAllF (f + 1) (mkPat v) rep t
      simp only [replaceAllF]
      rw [if_neg hbp, ih t f hlen' hnb', List.cons_append]
      have hfl : replaceAllF f (mkPat v) rep t = replaceAllF (f + 1) (mkPat v) rep t :=
        replaceAllF_fuel (mkPat v) rep (by simp [mkPat]) f (f + 1) t
          (le_trans (by simp) hlen') (le_trans (le_trans (by simp) hlen') (Nat.le_succ f))
      rw [hfl]

/-- `str.replace` consumes its own pattern at the head and emits the
replacement. -/
theorem replaceAllF_eat (v rep t : Chars) (fuel : Nat)
    (hlen : (mkPat v ++ t).length ≤ fuel) :
    replaceAllF fuel (mkPat v) rep (mkPat v ++ t)
      = rep ++ replaceAllF fuel (mkPat v) rep t := by
  cases fuel with
  | zero => simp [mkPat] at hlen
  | succ f =>
    have hshape : mkPat v ++ t = '{' :: ((v ++ ['}']) ++ t) := by simp [mkPat]
    rw [hshape]
    have hb : begins (mkPat v) ('{' :: ((v ++ ['}']) ++ t)) = true := by
      have h0 := begins_self_app (mkPat v) t
      have : mkPat v ++ t = '{' :: ((v ++ ['}']) ++ t) := by simp [mkPat]
      rwa [this] at h0
    show replaceAllF (f + 1) (mkPat v) rep ('{' :: ((v ++ ['}']) ++ t)) = _
    simp only [replaceAllF]
    rw [if_pos hb]
    have hdrop : ('{' :: ((v ++ ['}']) ++ t)).drop (mkPat v).length = t := by
      have h1 : ('{' : Char) :: ((v ++ ['}']) ++ t) = mkPat v ++ t := by simp [mkPat]
      rw [h1]
      exact List.drop_left _ _
    rw [hdrop]
    have hlt : t.length ≤ f := by
      simp only [List.length_append, mkPat, List.length_cons] at hlen
      omega
    have hfl : replaceAllF f (mkPat v) rep t = replaceAllF (f + 1) (mkPat v) rep t :=
      replaceAllF_fuel (mkPat v) rep (by simp [mkPat]) f (f + 1) t hlt (le_trans hlt (Nat.le_succ f))
    rw [hfl]

/-- Two distinct word-run identifiers never confuse the replacement test:
the pattern of one is not an initial segment of the other's rendering. -/
theorem begins_other_ph : ∀ (v w t : Chars), v ≠ w →
    v.all isWordChar = true → w.all isWordChar = true →
    begins (v ++ ['}']) (w ++ ('}' :: t)) = false := by
  intro v
  induction v with
  | nil =>
    intro w t hvw hv hw
    cases w with
    | nil => exact absurd rfl hvw
    | cons b w' =>
      have hb : isWordChar b = true := by
        simp only [List.all_cons, Bool.and_eq_true] at hw
        exact hw.1
      have hbb : ('}' == b) = false := by
        rw [beq_eq_false_iff_ne]
        exact fun e => (word_ne_rbrace hb) e.symm
      simp [begins, hbb]
  | cons a v' ih =>
    intro w t hvw hv hw
    cases w with
    | nil =>
      have ha : isWordChar a = true := by
        simp only [List.all_cons, Bool.and_eq_true] at hv
        exact hv.1
      have haa : (a == '}') = false := by
        rw [beq_eq_false_iff_ne]
        exact word_ne_rbrace ha
      simp [begins, haa]
    | cons b w' =>
      by_cases hab : a = b
      · subst hab
        have hv' : v'.all isWordChar = true := by
          simp only [List.all_cons, Bool.and_eq_true] at hv
          exact hv.2
        have hw' : w'.all isWordChar = true := by
          simp only [List.all_cons, Bool.and_eq_true] at hw
          exact hw.2
        have hvw' : v' ≠ w' := fun e => hvw (by rw [e])
        simp [begins, ih w' t hvw' hv' hw']
      · have haf : (a == b) = false := by
          rw [beq_eq_false_iff_ne]
          exact hab
        simp [begins, haf]

/-- Replacing the pattern of `v` walks over the rendering of a different
placeholder `w` unchanged. -/
theorem replaceAllF_other (v w rep t : Chars) (fuel : Nat)
    (hvw : v ≠ w) (hv : v.all isWordChar = true) (hw : w.all isWordChar = true)
    (hlen : (mkPat w ++ t).length ≤ fuel) :
    replaceAllF fuel (mkPat v) rep (mkPat w ++ t)
      = mkPat w ++ replaceAllF fuel (mkPat v) rep t := by
  cases fuel with
  | zero => simp [mkPat] at hlen
  | succ f =>
    have hshape : mkPat w ++ t = '{' :: (w ++ ('}' :: t)) := by simp [mkPat]
    rw [hshape]
    have hb : begins (mkPat v) ('{' :: (w ++ ('}' :: t))) = false := by
      show begins ('{' :: (v ++ ['}'])) ('{' :: (w ++ ('}' :: t))) = false
      have hba : begins (v ++ ['}']) (w ++ ('}' :: t)) = false :=
        begins_other_ph v w t hvw hv hw
      simp [begins, hba]
    have hbp : ¬ (begins (mkPat v) ('{' :: (w ++ ('}' :: t))) = true) := by simp [hb]
    show replaceAllF (f + 1) (mkPat v) rep ('{' :: (w ++ ('}' :: t))) = _
    simp only [replaceAllF]
    rw [if_neg hbp]
    have hnb : '{' ∉ (w ++ ['}']) := by
      intro hm
      rcases List.mem_append.mp hm with hm | hm
      · exact absurd ((List.all_eq_true.mp hw) _ hm) (by decide)
      · simp at hm
    have hlen2 : ((w ++ ['}']) ++ t).length ≤ f := by
      simp only [List.length_append, mkPat, List.length_cons] at hlen
      simp only [List.length_append, List.length_cons, List.length_nil]
      omega
    have hass : w ++ ('}' :: t) = (w ++ ['}']) ++ t := by simp
    rw [hass, replaceAllF_skip v rep (w ++ ['}']) t f hlen2 hnb]
    have hlt : t.length ≤ f := by
      simp only [List.length_append] at hlen2
      omega
    have hfl : replaceAllF f (mkPat v) rep t = replaceAllF (f + 1) (mkPat v) rep t :=
      replaceAllF_fuel (mkPat v) rep (by simp [mkPat]) f (f + 1) t hlt (le_trans hlt (Nat.le_succ f))
    rw [hfl]
    simp [mkPat]

/-- One `str.replace` of the pattern of `v` over a well-formed rendering
rewrites exactly the `v` placeholders into literal replacement text. -/
theorem replaceAll_render :
    ∀ (segs : List Seg), WFsegs segs →
      ∀ (v rep : Chars), v ≠ [] → v.all isWordChar = true →
      ∀ fuel, (render segs).length ≤ fuel →
        replaceAllF fuel (mkPat v) rep (render segs)
          = render (segs.map (replacePh v rep)) := by
  intro segs
  induction segs with
  | nil =>
    intro _ v rep _ _ fuel _
    cases fuel <;> rfl
  | cons sg rest ih =>
    intro hwf v rep hvne hvw fuel hlen
    have hwrest : WFsegs rest := fun x hx => hwf x (List.mem_cons_of_mem _ hx)
    cases sg with
    | lit s =>
      have hs : '{' ∉ s := hwf (.lit s) (List.mem_cons_self _ _)
      have hrender : render (Seg.lit s :: rest) = s ++ render rest := by
        simp [render, renderSeg]
      rw [hrender] at hlen ⊢
      rw [replaceAllF_skip v rep s (render rest) fuel hlen hs]
      rw [ih hwrest v rep hvne hvw fuel (le_trans (by simp) hlen)]
      simp [render, renderSeg, replacePh]
    | ph w =>
      obtain ⟨hwne, hww⟩ : w ≠ [] ∧ w.all isWordChar = true :=
        hwf (.ph w) (List.mem_cons_self _ _)
      have hrender : render (Seg.ph w :: rest) = mkPat w ++ render rest := by
        simp [render, renderSeg]
      rw [hrender] at hlen ⊢
      have hlenr : (render rest).length ≤ fuel := le_trans (by simp) hlen
      by_cases hwv : w = v
      · subst hwv
        rw [replaceAllF_eat w rep (render rest) fuel hlen]
        rw [ih hwrest w rep hvne hvw fuel hlenr]
        simp [render, renderSeg, replacePh]
      · have hvw3 : v ≠ w := fun e => hwv e.symm
        rw [replaceAllF_other v w rep (render rest) fuel hvw3 hvw hww hlen]
        rw [ih hwrest v rep hvne hvw fuel hlenr]
        simp [render, renderSeg, replacePh, hwv]

/-- The per-variable step of the resolver's fold, on the segment view. -/
def stepSeg (attrs : AttrDict) (v : Chars) (sg : Seg) : Seg :=
  match dictGet attrs (String.mk v) with
  | some sc => replacePh v (pyStr sc).data sg
  | none => sg

theorem segStep_eq_map (attrs : AttrDict) (v : Chars) (sgs : List Seg) :
    (match dictGet attrs (String.mk v) with
      | some sc => sgs.map (replacePh v (pyStr sc).data)
      | none => sgs)
    = sgs.map (stepSeg attrs v) := by
  cases hd : dictGet attrs (String.mk v) with
  | some sc => simp [stepSeg, hd]
  | none =>
    have hpt : ∀ sg ∈ sgs, stepSeg attrs v sg = sg := by
      intro sg _
      unfold stepSeg
      rw [hd]
    rw [List.map_congr_left hpt]
    simp

/-- A fold of per-segment maps is the map of the per-segment folds. -/
theorem foldl_map_form (attrs : AttrDict) :
    ∀ (vars : List Chars) (segs : List Seg),
      vars.foldl (fun sgs v => sgs.map (stepSeg attrs v)) segs
      = segs.map (fun sg => vars.foldl (fun s v => stepSeg attrs v s) sg) := by
  intro vars
  induction vars with
  | nil => intro segs; simp
  | cons v vars' ih =>
    intro segs
    rw [List.foldl_cons, ih, List.map_map]
    rfl

theorem foldl_stepSeg_lit (attrs : AttrDict) (vars : List Chars) (s : Chars) :
    vars.foldl (fun sg v => stepSeg attrs v sg) (Seg.lit s) = Seg.lit s := by
  induction vars with
  | nil => rfl
  | cons v vars' ih =>
    rw [List.foldl_cons]
    have hstep : stepSeg attrs v (Seg.lit s) = Seg.lit s := by
      unfold stepSeg
      cases dictGet attrs (String.mk v) <;> simp [replacePh]
    rw [hstep, ih]

theorem foldl_stepSeg_ph (attrs : AttrDict) :
    ∀ (vars : List Chars) (w : Chars),
      (dictGet attrs (String.mk w) = none ∨ w ∈ vars) →
      vars.foldl (fun sg v => stepSeg attrs v sg) (Seg.ph w) = substSegFun attrs (Seg.ph w) := by
  intro vars
  induction vars with
  | nil =>
    intro w hw
    rcases hw with hw | hw
    · simp [substSegFun, hw]
    · cases hw
  | cons v vars' ih =>
    intro w hw
    rw [List.foldl_cons]
    by_cases hvw : w = v
    · subst hvw
      cases hd : dictGet attrs (String.mk w) with
      | none =>
        have hstep : stepSeg attrs w (Seg.ph w) = Seg.ph w := by simp [stepSeg, hd]
        rw [hstep]
        exact ih w (Or.inl hd)
      | some sc =>
        have hstep : stepSeg attrs w (Seg.ph w) = Seg.lit (pyStr sc).data := by
          simp [stepSeg, hd, replacePh]
        rw [hstep, foldl_stepSeg_lit]
        simp [substSegFun, hd]
    · have hstep : stepSeg attrs v (Seg.ph w) = Seg.ph w := by
        unfold stepSeg
        cases dictGet attrs (String.mk v) <;> simp [replacePh, hvw]
      rw [hstep]
      rcases hw with hw | hw
      · exact ih w (Or.inl hw)
      · rcases List.mem_cons.mp hw with he | hm
        · exact absurd he hvw
        · exact ih w (Or.inr hm)

/-- Well-formedness survives one replacement step when the replacement
text holds no left brace. -/
theorem WFsegs_replacePh (segs : List Seg) (hwf : WFsegs segs) (v rep : Chars)
    (hrep : '{' ∉ rep) : WFsegs (segs.map (replacePh v rep)) := by
  intro sg hsg
  obtain ⟨sg0, hsg0, rfl⟩ := List.mem_map.mp hsg
  cases sg0 with
  | lit s => exact hwf (.lit s) hsg0
  | ph w =>
    by_cases hwv : w = v
    · subst hwv
      show segWF (if w = w then Seg.lit rep else Seg.ph w)
      rw [if_pos rfl]
      exact hrep
    · show segWF (if w = v then Seg.lit rep else Seg.ph w)
      rw [if_neg hwv]
      exact hwf (.ph w) hsg0

/-- The resolver's character-level fold, over a well-formed rendering and
brace-free values, is the corresponding fold on the segment view. -/
theorem foldl_resolve_render :
    ∀ (vars : List Chars) (segs : List Seg) (attrs : AttrDict),
      WFsegs segs →
      (∀ v ∈ vars, v ≠ [] ∧ v.all isWordChar = true) →
      (∀ p ∈ attrs, '{' ∉ (pyStr p.2).data) →
      vars.foldl (fun resolved v =>
        match dictGet attrs (String.mk v) with
        | some sc => replaceAll (mkPat v) (pyStr sc).data resolved
        | none => resolved) (render segs)
      = render (vars.foldl (fun sgs v =>
          match dictGet attrs (String.mk v) with
          | some sc => sgs.map (replacePh v (pyStr sc).data)
          | none => sgs) segs) := by
  intro vars
  induction vars with
  | nil => intro segs attrs _ _ _; rfl
  | cons v vars' ih =>
    intro segs attrs hwf hvars hvals
    obtain ⟨hvne, hvw⟩ : v ≠ [] ∧ v.all isWordChar = true :=
      hvars v (List.mem_cons_self _ _)
    have hvars' : ∀ x ∈ vars', x ≠ [] ∧ x.all isWordChar = true :=
      fun x hx => hvars x (List.mem_cons_of_mem _ hx)
    cases hd : dictGet attrs (String.mk v) with
    | none => simp only [List.foldl_cons, hd]; exact ih segs attrs hwf hvars' hvals
    | some sc =>
      have hrepfree : '{' ∉ (pyStr sc).data := by
        obtain ⟨p, hp, hpe⟩ := dictGet_mem attrs (String.mk v) sc hd
        rw [← hpe]
        exact hvals p hp
      have hrep : replaceAll (mkPat v) (pyStr sc).data (render segs)
          = render (segs.map (replacePh v (pyStr sc).data)) := by
        unfold replaceAll
        rw [if_neg (by simp [mkPat])]
        exact replaceAll_render segs hwf v (pyStr sc).data hvne hvw
          (render segs).length (le_refl _)
      simp only [List.foldl_cons, hd]
      rw [hrep]
      exact ih (segs.map (replacePh v (pyStr sc).data)) attrs
        (WFsegs_replacePh segs hwf v (pyStr sc).data hrepfree) hvars' hvals

instance (segs : List Seg) : Decidable (WFsegs segs) :=
  inferInstanceAs (Decidable (∀ sg ∈ segs, segWF sg))

/-- C6 (amended): over every well-formed name — literal text holding no
left brace interleaved with placeholders whose identifiers are nonempty
word runs — and every attribute mapping whose substituted string forms
hold no left brace, `resolve_span_name` returns the name with each
placeholder whose identifier is a key of the mapping replaced by the
string form of its value and each other placeholder left verbatim; in
particular resolving `{a}-{b}` with `a` mapped to `x` yields `x-{b}`.
(Without the proviso, text substituted for an earlier placeholder is
itself rewritten by the later replacements, as the counterexample
shows.) -/
theorem resolve_span_name_amended (segs : List Seg) (attrs : AttrDict)
    (hwf : WFsegs segs)
    (hvals : ∀ p ∈ attrs, '{' ∉ (pyStr p.2).data) :
    resolve_span_name (String.mk (render segs)) attrs
      = String.mk (renderSubst attrs segs) := by
  unfold resolve_span_name
  congr 1
  show resolveChars (render segs) attrs = renderSubst attrs segs
  unfold resolveChars
  by_cases hemp : attrs.isEmpty
  · rw [if_pos hemp]
    have hattrs : attrs = [] := List.isEmpty_iff.mp hemp
    subst hattrs
    unfold renderSubst
    have hptw : ∀ sg ∈ segs, substSegFun [] sg = sg := by
      intro sg _
      cases sg <;> rfl
    rw [List.map_congr_left hptw]
    simp
  · rw [if_neg hemp]
    have hfv : findVars (render segs) = phVars segs :=
      findVars_render_aux segs hwf (render segs).length (le_refl _)
    rw [hfv]
    have hvarsph : ∀ v ∈ phVars segs, v ≠ [] ∧ v.all isWordChar = true := by
      intro v hv
      obtain ⟨sg, hsg, hmatch⟩ := List.mem_filterMap.mp hv
      cases sg with
      | lit s => simp at hmatch
      | ph w =>
        have he : w = v := by simpa using hmatch
        subst he
        exact hwf (.ph w) hsg
    rw [foldl_resolve_render (phVars segs) segs attrs hwf hvarsph hvals]
    unfold renderSubst
    congr 1
    have hfunx : (fun (sgs : List Seg) (v : Chars) =>
        match dictGet attrs (String.mk v) with
        | some sc => sgs.map (replacePh v (pyStr sc).data)
        | none => sgs) = fun sgs v => sgs.map (stepSeg attrs v) := by
      funext sgs v
      exact segStep_eq_map attrs v sgs
    rw [hfunx, foldl_map_form]
    apply List.map_congr_left
    intro sg hsg
    cases sg with
    | lit s => rw [foldl_stepSeg_lit]; rfl
    | ph w =>
      apply foldl_stepSeg_ph
      exact Or.inr (List.mem_filterMap.mpr ⟨Seg.ph w, hsg, rfl⟩)

def c6wsegs : List Seg := [Seg.ph ['a'], Seg.lit ['-'], Seg.ph ['b']]

def c6wattrs : AttrDict := [("a", .str "x")]

/-- C6 witness: resolving `{a}-{b}` with the mapping `a` to `x` yields
`x-{b}` — the matched placeholder substituted, the unmatched one left
verbatim. -/
theorem resolve_span_name_amended_witness :
    resolve_span_name "{a}-{b}" c6wattrs = "x-{b}" := by
  have h := resolve_span_name_amended c6wsegs c6wattrs (by decide) (by decide)
  have h1 : String.mk (render c6wsegs) = "{a}-{b}" := by decide
  have h2 : String.mk (renderSubst c6wattrs c6wsegs) = "x-{b}" := by decide
  rw [h1, h2] at h
  exact h
